import Mathlib

/-!
Verification development for the mail2elasticsearch message-transformation
pipeline.  The Go sources are embedded shallowly: byte strings become
`List Nat` (each element a byte value), header mappings become association
lists from field name to value list, and the external collaborators
(MIME word decoder, quoted-printable and base64 decoders, media-type
parser, charset decoder registry, charset autodetector, content digest)
are fields of an explicit `Env` record, so every theorem quantifies over
their behaviour.
-/

/-! ### Character classes

`isSpaceCh` is the RE2 character class backslash-s used by the compiled
patterns in headers.go: tab, newline, form feed, carriage return, space.
`goSpace` is Go `unicode.IsSpace`, used by `strings.TrimSpace`. -/

def isSpaceCh (c : Char) : Bool :=
  c = ' ' || c = '\t' || c = '\n' || c = Char.ofNat 12 || c = '\r'

def goSpace (c : Char) : Bool :=
  c = ' ' || c = '\t' || c = '\n' || c = Char.ofNat 11 || c = Char.ofNat 12 ||
  c = '\r' || c = Char.ofNat 0x85 || c = Char.ofNat 0xA0 ||
  c = Char.ofNat 0x1680 || (0x2000 ≤ c.toNat && c.toNat ≤ 0x200A) ||
  c = Char.ofNat 0x2028 || c = Char.ofNat 0x2029 || c = Char.ofNat 0x202F ||
  c = Char.ofNat 0x205F || c = Char.ofNat 0x3000

/-! ### stripSpaceAndComments (headers.go, src/unnamed/part_000 lines 21-34)

`commentRegex` is a parenthesis, then any characters other than a closing
parenthesis, then a closing parenthesis; `ReplaceAllString` deletes every
non-overlapping leftmost match.  `stripCommentsAux` is a one-pass
equivalent: on an opening parenthesis it starts buffering; the buffer is
discarded when the first closing parenthesis arrives (the match), and
flushed verbatim at end of input when no closing parenthesis ever came
(no match). -/

def stripCommentsAux : List Char → List Char → List Char
  | [], pend => pend.reverse
  | c :: rest, pend =>
    if pend.isEmpty then
      if c = '(' then stripCommentsAux rest [c]
      else c :: stripCommentsAux rest []
    else
      if c = ')' then stripCommentsAux rest []
      else stripCommentsAux rest (c :: pend)

def stripComments (l : List Char) : List Char := stripCommentsAux l []

/-- `whitespaceRegex.ReplaceAllString(val, " ")`: every maximal run of
RE2 whitespace becomes a single space.  The boolean tracks whether the
previous character was part of a whitespace run. -/

def collapseWsAux : List Char → Bool → List Char
  | [], _ => []
  | c :: rest, inRun =>
    if isSpaceCh c then
      if inRun then collapseWsAux rest true
      else ' ' :: collapseWsAux rest true
    else c :: collapseWsAux rest false

def collapseWs (l : List Char) : List Char := collapseWsAux l false

/-- Removes the maximal trailing run of characters satisfying `p`. -/

def dropTrailing (p : Char → Bool) : List Char → List Char
  | [] => []
  | c :: rest =>
    match dropTrailing p rest with
    | [] => if p c then [] else [c]
    | r => c :: r

/-- Go `strings.TrimSpace`. -/

def trimSpace (l : List Char) : List Char :=
  dropTrailing goSpace (l.dropWhile goSpace)

/-- One loop iteration of `stripSpaceAndComments`: delete comments, then
collapse whitespace runs, then trim. -/

def stripOne (s : String) : String :=
  String.mk (trimSpace (collapseWs (stripComments s.data)))

/-- `stripSpaceAndComments` (src/unnamed/part_000): applies `stripOne` to
each value in order, appending results. -/

def stripSpaceAndComments (vals : List String) : List String :=
  vals.map stripOne

/-! ### splitAddrs (headers.go, src/unnamed/part_000 lines 8-19)

`addrSplitRegex` is optional whitespace, a comma, optional whitespace;
`Split` cuts the value at every non-overlapping leftmost match.  The
one-pass scanner keeps the current piece (reversed) and a pending
whitespace run: whitespace followed by a comma belongs to the separator
(the pending run is discarded), otherwise it belongs to the piece.
After a comma, whitespace is consumed greedily by the separator
(`postC` mode). -/

def splitAux : List Char → List Char → List Char → Bool → List (List Char)
  | [], cur, pend, _ => [(pend ++ cur).reverse]
  | c :: rest, cur, pend, postC =>
    if c = ',' then cur.reverse :: splitAux rest [] [] true
    else if isSpaceCh c then
      if postC then splitAux rest cur pend true
      else splitAux rest cur (c :: pend) false
    else splitAux rest (c :: (pend ++ cur)) [] false

def splitOne (s : String) : List String :=
  (splitAux s.data [] [] false).map String.mk

/-- `splitAddrs` (src/unnamed/part_000): splits each value and appends
all pieces in order. -/

def splitAddrs (vals : List String) : List String :=
  (vals.map splitOne).flatten

/-! ### normalizeForBase64 (src/unnamed/part_002 lines 308-322)

`bytes.Map` over the body: canonical base64 alphabet bytes are kept,
the confusable punctuation bytes comma, underscore and colon become
a slash, a dash becomes a plus, and every other rune is dropped.  All
kept or substituted runes are ASCII, and ASCII bytes are always decoded
as single runes by `bytes.Map`, so the byte-level function below
produces the same output as the rune-level original. -/

def b64MapByte (b : Nat) : Option Nat :=
  if (48 ≤ b ∧ b ≤ 57) ∨ (65 ≤ b ∧ b ≤ 90) ∨ (97 ≤ b ∧ b ≤ 122) ∨
     b = 43 ∨ b = 47 ∨ b = 61 then some b
  else if b = 44 ∨ b = 95 ∨ b = 58 then some 47
  else if b = 45 then some 43
  else none

def normalizeForBase64 (body : List Nat) : List Nat :=
  body.filterMap b64MapByte

/-! ### Header mapping (github.com/myfreeweb/go-email email.Header)

A Go `map[string][]string` whose keys are canonical MIME header names;
modelled as an association list.  `headerGet` is `Header.Get`: the first
value of the key, or the empty string when the key is absent or its
value list is empty.  `headerGetAll` is direct map indexing (a missing
key gives the empty list), `headerSet` is map assignment, `headerErase`
is `delete`. -/

abbrev Header : Type := List (String × List String)

def headerGetAll (h : Header) (k : String) : List String :=
  match List.find? (fun p => p.fst == k) h with
  | some p => p.snd
  | none => []

def headerGet (h : Header) (k : String) : String :=
  match headerGetAll h k with
  | [] => ""
  | v :: _ => v

def headerSet (h : Header) (k : String) (vs : List String) : Header :=
  if List.any h (fun p => p.fst == k) then
    List.map (fun p => if p.fst == k then (k, vs) else p) h
  else h ++ [(k, vs)]

def headerErase (h : Header) (k : String) : Header :=
  List.filter (fun p => !(p.fst == k)) h

def headerHasKey (h : Header) (k : String) : Bool :=
  List.any h (fun p => p.fst == k)

/-! ### Environment of external collaborators

Each field abstracts one external routine used by jsonifyMsg
(src/unnamed/part_002); `none` models a non-nil error return.
The content digest (`blake2b.Sum256`, a fixed 32-byte array) is a
function to 32 byte values. -/

structure Env where
  attachdir : String
  hash : List Nat → Fin 32 → Nat
  wordDecode : String → Option String
  qpDecode : List Nat → Option (List Nat)
  b64Decode : List Nat → Option (List Nat)
  parseMediaType : String → Option (String × List (String × String))
  charsetDecode : String → List Nat → Bool → Option String
  detect : Bool → List Nat → Option String
  charsetLookup : String → Option (List Nat → Option (List Nat))

/-! ### Parsed message tree (email.Message) and output document (JMessage) -/

inductive Message : Type where
  | mk (header : Header) (body preamble epilogue : List Nat)
       (subMessage : Option Message) (parts : List (Option Message))

def Message.header : Message → Header
  | .mk h _ _ _ _ _ => h

def Message.body : Message → List Nat
  | .mk _ b _ _ _ _ => b

def Message.preamble : Message → List Nat
  | .mk _ _ p _ _ _ => p

def Message.epilogue : Message → List Nat
  | .mk _ _ _ e _ _ => e

def Message.subMessage : Message → Option Message
  | .mk _ _ _ _ s _ => s

def Message.parts : Message → List (Option Message)
  | .mk _ _ _ _ _ ps => ps

inductive JMessage : Type where
  | mk (id : String) (header : Header) (preamble epilogue : List Nat)
       (parts : List JMessage) (subMessage : Option JMessage)
       (textBody : String) (attachment : String)

def JMessage.id : JMessage → String
  | .mk i _ _ _ _ _ _ _ => i

def JMessage.header : JMessage → Header
  | .mk _ h _ _ _ _ _ _ => h

def JMessage.preamble : JMessage → List Nat
  | .mk _ _ p _ _ _ _ _ => p

def JMessage.epilogue : JMessage → List Nat
  | .mk _ _ _ e _ _ _ _ => e

def JMessage.parts : JMessage → List JMessage
  | .mk _ _ _ _ ps _ _ _ => ps

def JMessage.subMessage : JMessage → Option JMessage
  | .mk _ _ _ _ _ s _ _ => s

def JMessage.textBody : JMessage → String
  | .mk _ _ _ _ _ _ t _ => t

def JMessage.attachment : JMessage → String
  | .mk _ _ _ _ _ _ _ a => a

/-! ### Attachment path (src/unnamed/part_002 lines 162-163)

`blake2b.Sum256` digests the body; the path is the configured attachment
directory joined with the lowercase hex encoding of the 32 digest bytes. -/

def hexDigit (n : Nat) : Char :=
  if n < 10 then Char.ofNat (48 + n) else Char.ofNat (87 + n)

def byteHex (b : Nat) : List Char :=
  [hexDigit (b / 16 % 16), hexDigit (b % 16)]

def digestBytes (env : Env) (body : List Nat) : List Nat :=
  List.ofFn (fun i : Fin 32 => env.hash body i % 256)

def hexEncode (bs : List Nat) : List Char :=
  (bs.map byteHex).flatten

def attachPath (env : Env) (body : List Nat) : String :=
  if env.attachdir = "" then String.mk (hexEncode (digestBytes env body))
  else String.mk (env.attachdir.data ++ '/' :: hexEncode (digestBytes env body))

/-! ### Header normalization (src/unnamed/part_002 lines 86-104)

Every header value is passed through the MIME word decoder (the raw
value is kept when decoding errors); then Date is comment/whitespace
stripped and the six address-bearing fields are split on commas.  Go map
assignment inserts the key when absent, which these modelled operations
reproduce. -/

def decodeWords (env : Env) (h : Header) : Header :=
  List.map (fun p => (p.fst, p.snd.map (fun v => (env.wordDecode v).getD v))) h

def normalizeHeader (env : Env) (h : Header) : Header :=
  let h1 := decodeWords env h
  let h2 := headerSet h1 "Date" (stripSpaceAndComments (headerGetAll h1 "Date"))
  let h3 := headerSet h2 "From" (splitAddrs (headerGetAll h2 "From"))
  let h4 := headerSet h3 "To" (splitAddrs (headerGetAll h3 "To"))
  let h5 := headerSet h4 "Cc" (splitAddrs (headerGetAll h4 "Cc"))
  let h6 := headerSet h5 "Bcc" (splitAddrs (headerGetAll h5 "Bcc"))
  let h7 := headerSet h6 "Return-Path" (splitAddrs (headerGetAll h6 "Return-Path"))
  headerSet h7 "Delivered-To" (splitAddrs (headerGetAll h7 "Delivered-To"))

/-- The header mapping stored in the document for one node: `Message-Id`
deleted, then normalized. -/

def jmHeader (env : Env) (msg : Message) : Header :=
  normalizeHeader env (headerErase msg.header "Message-Id")

/-! ### Body resolution (src/unnamed/part_002 lines 116-187)

Stage A, transfer encoding: quoted-printable or base64 per the declared
Content-Transfer-Encoding (base64 input is first passed through
normalizeForBase64); `none` means the stage failed, in which case the
part falls through to the attachment path with its original bytes.
Stage B, charset: entered only when the Content-Type begins with "text"
and the Content-Disposition does not contain "attachment"; an unreadable
Content-Type is assumed to be text/html or text/plain with no
parameters.  `charsetDecode` abstracts the decodeCharset call (charset
parameter, body, html flag); `none` is its error return.  On charset
success the decoded text is the TextBody and no attachment is recorded;
every other outcome stores the current body bytes as an attachment. -/

def infixOfAux (pat : List Char) : List Char → Bool
  | [] => List.isPrefixOf pat []
  | c :: rest => List.isPrefixOf pat (c :: rest) || infixOfAux pat rest

def strContains (s pat : String) : Bool :=
  infixOfAux pat.data s.data

def strStarts (s pat : String) : Bool :=
  List.isPrefixOf pat.data s.data

def paramsGet (ps : List (String × String)) (k : String) : String :=
  match List.find? (fun p => p.fst == k) ps with
  | some p => p.snd
  | none => ""

def transferStage (env : Env) (hdr : Header) (body : List Nat) : Option (List Nat) :=
  if headerGet hdr "Content-Transfer-Encoding" = "quoted-printable" then
    env.qpDecode body
  else if headerGet hdr "Content-Transfer-Encoding" = "base64" then
    env.b64Decode (normalizeForBase64 body)
  else some body

def charsetStage (env : Env) (hdr : Header) (body : List Nat) : Option String :=
  let ctype := headerGet hdr "Content-Type"
  if strStarts ctype "text" && !(strContains (headerGet hdr "Content-Disposition") "attachment") then
    let mp :=
      match env.parseMediaType ctype with
      | some r => r
      | none => (if strContains ctype "html" then "text/html" else "text/plain", [])
    env.charsetDecode (paramsGet mp.snd "charset") body (strContains mp.fst "html")
  else none

def resolveBody (env : Env) (hdr : Header) (body : List Nat) : String × String :=
  match transferStage env hdr body with
  | none => ("", attachPath env body)
  | some b =>
    match charsetStage env hdr b with
    | some t => (t, "")
    | none => ("", attachPath env b)

/-! ### jsonifyMsg (src/unnamed/part_002 lines 70-188)

The document identifier is read from the original header before
`Message-Id` is deleted; the sub-message and the non-null child parts
are transformed recursively in order; the node's own body is resolved
through the two decoding stages.  The returned document does not depend
on the filesystem: the attachment path is recorded before the existence
check and on every write-error branch. -/

mutual

def jsonifyMsg (env : Env) : Message → JMessage
  | .mk header body preamble epilogue sub parts =>
    let hdr := normalizeHeader env (headerErase header "Message-Id")
    let ta := resolveBody env hdr body
    JMessage.mk (headerGet header "Message-Id") hdr preamble epilogue
      (jsonifyParts env parts) (jsonifySub env sub) ta.fst ta.snd

def jsonifySub (env : Env) : Option Message → Option JMessage
  | none => none
  | some m => some (jsonifyMsg env m)

def jsonifyParts (env : Env) : List (Option Message) → List JMessage
  | [] => []
  | none :: rest => jsonifyParts env rest
  | some m :: rest => jsonifyMsg env m :: jsonifyParts env rest

end

/-! ### Attachment store (src/unnamed/part_002 lines 161-187)

The filesystem is a set of published paths.  If a file already exists at
the digest-derived path the write is skipped (dedup hit); otherwise the
safefile create-write-commit sequence atomically publishes the file.
The boolean reports whether a physical write was performed. -/

structure FS where
  existing : List String

def saveAttachment (env : Env) (fs : FS) (body : List Nat) : String × FS × Bool :=
  if fs.existing.contains (attachPath env body) then (attachPath env body, fs, false)
  else (attachPath env body, FS.mk (attachPath env body :: fs.existing), true)

/-! ### decodeCharset (src/unnamed/part_001 lines 98-125)

Charset resolution: an explicit charset parameter is used as is;
otherwise autodetection runs (`env.detect` returns `some c` when the
detector's DetectBest returns a confident result with charset `c` and a
nil error, `none` when it returns a non-nil error and a nil result).
The Go code then branches on `err != nil`: in the error branch it reads
`detenc.Charset` from the nil result — a nil-pointer dereference,
modelled as `none` (crash) — and in the success branch it assigns
"utf-8", ignoring the detected charset.  After resolution the decoder
registry is consulted and the body decoded. -/

def resolveCharsetName (env : Env) (charset : String) (body : List Nat) (ishtml : Bool) : Option String :=
  if charset = "" then
    match env.detect ishtml body with
    | some _ => some "utf-8"
    | none => none
  else some charset

def decodeCharset (env : Env) (charset : String) (body : List Nat) (ishtml : Bool) :
    Option (Option (List Nat) × String) :=
  match resolveCharsetName env charset body ishtml with
  | none => none
  | some cs =>
    match env.charsetLookup cs with
    | none => some (none, cs)
    | some dec =>
      match dec body with
      | none => some (none, cs)
      | some d => some (some d, cs)

-- ### Comment-removal correctness kit

def hasRparen (l : List Char) : Bool := l.any (fun c => c == ')')

def hasCommentB : List Char → Bool
  | [] => false
  | c :: rest => (c == '(' && hasRparen rest) || hasCommentB rest

-- collapsed-whitespace well-formedness

def okCh (c : Char) : Bool := !(isSpaceCh c) || c == ' '

def pairOk (a : Char) : List Char → Bool
  | [] => true
  | b :: _ => !(isSpaceCh a && isSpaceCh b)

def wsOkB : List Char → Bool
  | [] => true
  | [c] => okCh c
  | a :: b :: r => (okCh a && pairOk a (b :: r)) && wsOkB (b :: r)

def headNotSpaceCh : List Char → Bool
  | [] => true
  | c :: _ => !(isSpaceCh c)

-- ### End-of-value lemmas and assembled per-value properties

def headNotB (p : Char → Bool) : List Char → Bool
  | [] => true
  | c :: _ => !(p c)

def lastNotB (p : Char → Bool) (l : List Char) : Bool :=
  match l.getLast? with
  | none => true
  | some c => !(p c)

-- ### C3 assembled

def dateRaw : String := " Thu,\n 13\n Feb\n 1969\n 23:32\n -0330 (Newfoundland Time)"

def addrRaw : String := "hello world <test@example.com> ,\t nice@me.me (test),hi@example.com"

-- ### C6: normalizeForBase64

abbrev isB64Alpha (b : Nat) : Prop :=
  (48 ≤ b ∧ b ≤ 57) ∨ (65 ≤ b ∧ b ≤ 90) ∨ (97 ≤ b ∧ b ≤ 122) ∨ b = 43 ∨ b = 47 ∨ b = 61

/-- The byte mapping exactly as the specification words it: first the
confusable punctuation, then the alphabet, everything else dropped. -/

def b64SpecMap (b : Nat) : Option Nat :=
  if b = 44 ∨ b = 95 ∨ b = 58 then some 47
  else if b = 45 then some 43
  else if isB64Alpha b then some b
  else none

-- concrete environments and messages for closed evaluations

def hash0 : List Nat → Fin 32 → Nat := fun _ _ => 0

def envC10 : Env where
  attachdir := "files"
  hash := hash0
  wordDecode := fun _ => none
  qpDecode := fun _ => none
  b64Decode := fun _ => none
  parseMediaType := fun s =>
    if s = "text/plain; charset=utf-8" then some ("text/plain", [("charset", "utf-8")]) else none
  charsetDecode := fun c _ _ => if c = "utf-8" then some "" else none
  detect := fun _ _ => none
  charsetLookup := fun _ => none

def msgC10 : Message :=
  .mk [("Content-Type", ["text/plain; charset=utf-8"])] [] [] [] none []

def envW10 : Env where
  attachdir := "files"
  hash := hash0
  wordDecode := fun _ => none
  qpDecode := fun _ => none
  b64Decode := fun _ => none
  parseMediaType := fun _ => none
  charsetDecode := fun _ _ _ => none
  detect := fun _ _ => none
  charsetLookup := fun _ => none

def msgW10 : Message := .mk [] [] [] [] none []

-- ### C5 witness

def envW5 : Env where
  attachdir := "files"
  hash := hash0
  wordDecode := fun _ => none
  qpDecode := fun _ => none
  b64Decode := fun _ => none
  parseMediaType := fun _ => none
  charsetDecode := fun _ _ _ => none
  detect := fun _ _ => none
  charsetLookup := fun _ => none

def msgW5 : Message :=
  .mk [("Content-Transfer-Encoding", ["quoted-printable"])] [7] [] [] none []

def envW8 : Env where
  attachdir := "files"
  hash := hash0
  wordDecode := fun _ => none
  qpDecode := fun _ => none
  b64Decode := fun _ => none
  parseMediaType := fun _ => none
  charsetDecode := fun _ _ _ => none
  detect := fun _ _ => none
  charsetLookup := fun _ => none

-- ### C1: charset detection result ignored

def envC1 : Env where
  attachdir := "files"
  hash := hash0
  wordDecode := fun _ => none
  qpDecode := fun _ => none
  b64Decode := fun _ => none
  parseMediaType := fun _ => none
  charsetDecode := fun _ _ _ => none
  detect := fun _ _ => some "KOI8-R"
  charsetLookup := fun cs =>
    if cs = "utf-8" then some (fun b => some b)
    else if cs = "KOI8-R" then some (fun b => some (b.map (fun x => x + 1)))
    else none

def envC1crash : Env where
  attachdir := "files"
  hash := hash0
  wordDecode := fun _ => none
  qpDecode := fun _ => none
  b64Decode := fun _ => none
  parseMediaType := fun _ => none
  charsetDecode := fun _ _ _ => none
  detect := fun _ _ => none
  charsetLookup := fun _ => none

/-! ### Theorems -/

theorem hasRparen_nil : hasRparen [] = false := rfl

theorem hasRparen_cons (c : Char) (l : List Char) :
    hasRparen (c :: l) = ((c == ')') || hasRparen l) := rfl

theorem hasCommentB_cons (c : Char) (l : List Char) :
    hasCommentB (c :: l) = ((c == '(' && hasRparen l) || hasCommentB l) := rfl

theorem hasCommentB_cons_mono {c : Char} {l : List Char} (h : hasCommentB l = true) :
    hasCommentB (c :: l) = true := by
  rw [hasCommentB_cons, h, Bool.or_true]

theorem hasCommentB_of_no_rparen : ∀ {l : List Char}, hasRparen l = false → hasCommentB l = false
  | [], _ => rfl
  | c :: rest, h => by
    rw [hasRparen_cons, Bool.or_eq_false_iff] at h
    rw [hasCommentB_cons, h.2, Bool.and_false, Bool.false_or]
    exact hasCommentB_of_no_rparen h.2

theorem hasRparen_reverse (l : List Char) : hasRparen l.reverse = hasRparen l := by
  simp [hasRparen]

theorem stripCommentsAux_noComment :
    ∀ (l pend : List Char), hasRparen pend = false →
      hasCommentB (stripCommentsAux l pend) = false
  | [], pend, h => by
    rw [stripCommentsAux]
    exact hasCommentB_of_no_rparen (by rw [hasRparen_reverse]; exact h)
  | c :: rest, pend, h => by
    rw [stripCommentsAux]
    by_cases hp : pend.isEmpty
    · rw [if_pos hp]
      by_cases hc : c = '('
      · subst hc
        rw [if_pos rfl]
        exact stripCommentsAux_noComment rest ['('] (by decide)
      · rw [if_neg hc, hasCommentB_cons]
        have hb : (c == '(') = false := by
          cases hbe : (c == '(') with
          | false => rfl
          | true => exact absurd (by exact eq_of_beq hbe) hc
        rw [hb, Bool.false_and, Bool.false_or]
        exact stripCommentsAux_noComment rest [] rfl
    · rw [if_neg hp]
      by_cases hc : c = ')'
      · rw [if_pos hc]
        exact stripCommentsAux_noComment rest [] rfl
      · rw [if_neg hc]
        refine stripCommentsAux_noComment rest (c :: pend) ?_
        rw [hasRparen_cons, h, Bool.or_false]
        cases hbe : (c == ')') with
        | false => rfl
        | true => exact absurd (by exact eq_of_beq hbe) hc

theorem stripComments_noComment (l : List Char) : hasCommentB (stripComments l) = false :=
  stripCommentsAux_noComment l [] rfl

theorem collapseWsAux_any (q : Char → Bool) (hq : q ' ' = false) :
    ∀ (l : List Char) (flag : Bool), (collapseWsAux l flag).any q = true → l.any q = true
  | [], _, h => by simp [collapseWsAux] at h
  | c :: rest, flag, h => by
    rw [collapseWsAux] at h
    by_cases hs : isSpaceCh c = true
    · rw [if_pos hs] at h
      cases flag with
      | true =>
        rw [if_pos rfl] at h
        have := collapseWsAux_any q hq rest true h
        simp [List.any_cons, this]
      | false =>
        rw [if_neg (by decide)] at h
        rw [List.any_cons, hq, Bool.false_or] at h
        have := collapseWsAux_any q hq rest true h
        simp [List.any_cons, this]
    · rw [if_neg hs, List.any_cons] at h
      rw [List.any_cons]
      rcases Bool.or_eq_true_iff.mp h with h1 | h2
      · rw [h1, Bool.true_or]
      · rw [collapseWsAux_any q hq rest false h2, Bool.or_true]

theorem collapseWsAux_noComment :
    ∀ (l : List Char) (flag : Bool), hasCommentB (collapseWsAux l flag) = true →
      hasCommentB l = true
  | [], _, h => by simp [collapseWsAux, hasCommentB] at h
  | c :: rest, flag, h => by
    rw [collapseWsAux] at h
    by_cases hs : isSpaceCh c = true
    · rw [if_pos hs] at h
      cases flag with
      | true => exact hasCommentB_cons_mono (collapseWsAux_noComment rest true h)
      | false =>
        rw [if_neg (by decide), hasCommentB_cons] at h
        rw [show ((' ' == '(') = false) from rfl, Bool.false_and, Bool.false_or] at h
        exact hasCommentB_cons_mono (collapseWsAux_noComment rest true h)
    · rw [if_neg hs, hasCommentB_cons] at h
      rw [hasCommentB_cons]
      rcases Bool.or_eq_true_iff.mp h with h1 | h2
      · rcases Bool.and_eq_true_iff.mp h1 with ⟨hc, hr⟩
        have : hasRparen rest = true :=
          collapseWsAux_any (fun c => c == ')') rfl rest false hr
        rw [hc, this, Bool.and_true, Bool.true_or]
      · rw [collapseWsAux_noComment rest false h2, Bool.or_true]

theorem wsOkB_cons (a : Char) (l : List Char) :
    wsOkB (a :: l) = ((okCh a && pairOk a l) && wsOkB l) := by
  cases l with
  | nil => simp [wsOkB, pairOk, okCh]
  | cons b r => rfl

theorem collapseWsAux_headNotSpace :
    ∀ (l : List Char), headNotSpaceCh (collapseWsAux l true) = true
  | [] => rfl
  | c :: rest => by
    rw [collapseWsAux]
    by_cases hs : isSpaceCh c = true
    · rw [if_pos hs, if_pos rfl]
      exact collapseWsAux_headNotSpace rest
    · rw [if_neg hs]
      simp [headNotSpaceCh]
      exact Bool.of_not_eq_true hs

theorem collapseWsAux_wsOk :
    ∀ (l : List Char) (flag : Bool), wsOkB (collapseWsAux l flag) = true
  | [], _ => rfl
  | c :: rest, flag => by
    rw [collapseWsAux]
    by_cases hs : isSpaceCh c = true
    · rw [if_pos hs]
      cases flag with
      | true => exact collapseWsAux_wsOk rest true
      | false =>
        rw [if_neg (by decide), wsOkB_cons]
        have hhead : pairOk ' ' (collapseWsAux rest true) = true := by
          have := collapseWsAux_headNotSpace rest
          cases hc : collapseWsAux rest true with
          | nil => rfl
          | cons b r =>
            rw [hc] at this
            simp [headNotSpaceCh] at this
            simp [pairOk, this]
        rw [hhead, collapseWsAux_wsOk rest true]
        decide
    · rw [if_neg hs, wsOkB_cons]
      have hok : okCh c = true := by simp [okCh, Bool.of_not_eq_true hs]
      have hpair : pairOk c (collapseWsAux rest false) = true := by
        cases hc : collapseWsAux rest false with
        | nil => rfl
        | cons b r => simp [pairOk, Bool.of_not_eq_true hs]
      rw [hok, hpair, collapseWsAux_wsOk rest false]
      rfl

-- ### Trim kit

theorem dropTrailing_nil (p : Char → Bool) : dropTrailing p [] = [] := rfl

theorem dropTrailing_cons (p : Char → Bool) (c : Char) (rest : List Char) :
    dropTrailing p (c :: rest) =
      (match dropTrailing p rest with
       | [] => if p c then [] else [c]
       | r => c :: r) := rfl

theorem any_dropWhile (p q : Char → Bool) :
    ∀ l : List Char, ((l.dropWhile p).any q = true) → l.any q = true
  | [], h => h
  | c :: rest, h => by
    rw [List.dropWhile_cons] at h
    by_cases hp : p c = true
    · rw [if_pos hp] at h
      rw [List.any_cons, any_dropWhile p q rest h, Bool.or_true]
    · rw [if_neg hp] at h
      exact h

theorem any_dropTrailing (p q : Char → Bool) :
    ∀ l : List Char, ((dropTrailing p l).any q = true) → l.any q = true
  | [], h => h
  | c :: rest, h => by
    rw [List.any_cons]
    cases hdt : dropTrailing p rest with
    | nil =>
      simp only [dropTrailing_cons, hdt] at h
      by_cases hp : p c = true
      · simp [hp] at h
      · simp only [if_neg hp, List.any_cons, List.any_nil, Bool.or_false] at h
        rw [h, Bool.true_or]
    | cons x r =>
      simp only [dropTrailing_cons, hdt, List.any_cons] at h
      rcases Bool.or_eq_true_iff.mp h with h1 | h2
      · rw [h1, Bool.true_or]
      · have : rest.any q = true := any_dropTrailing p q rest (by rw [hdt]; exact h2)
        rw [this, Bool.or_true]

theorem hasCommentB_dropWhile (p : Char → Bool) :
    ∀ l : List Char, hasCommentB (l.dropWhile p) = true → hasCommentB l = true
  | [], h => h
  | c :: rest, h => by
    rw [List.dropWhile_cons] at h
    by_cases hp : p c = true
    · rw [if_pos hp] at h
      exact hasCommentB_cons_mono (hasCommentB_dropWhile p rest h)
    · rw [if_neg hp] at h
      exact h

theorem hasCommentB_dropTrailing (p : Char → Bool) :
    ∀ l : List Char, hasCommentB (dropTrailing p l) = true → hasCommentB l = true
  | [], h => h
  | c :: rest, h => by
    cases hdt : dropTrailing p rest with
    | nil =>
      simp only [dropTrailing_cons, hdt] at h
      by_cases hp : p c = true
      · simp [hp, hasCommentB] at h
      · simp only [if_neg hp, hasCommentB_cons, hasRparen_nil, Bool.and_false,
          Bool.false_or] at h
        simp [hasCommentB] at h
    | cons x r =>
      simp only [dropTrailing_cons, hdt, hasCommentB_cons] at h
      rw [hasCommentB_cons]
      rcases Bool.or_eq_true_iff.mp h with h1 | h2
      · rcases Bool.and_eq_true_iff.mp h1 with ⟨hc, hr⟩
        have : hasRparen rest = true :=
          any_dropTrailing p (fun c => c == ')') rest (by rw [hdt]; exact hr)
        rw [hc, this, Bool.and_true, Bool.true_or]
      · have : hasCommentB rest = true :=
          hasCommentB_dropTrailing p rest (by rw [hdt]; exact h2)
        rw [this, Bool.or_true]

theorem wsOkB_tail {a : Char} {l : List Char} (h : wsOkB (a :: l) = true) : wsOkB l = true := by
  rw [wsOkB_cons] at h
  exact (Bool.and_eq_true_iff.mp h).2

theorem wsOkB_dropWhile (p : Char → Bool) :
    ∀ l : List Char, wsOkB l = true → wsOkB (l.dropWhile p) = true
  | [], h => h
  | c :: rest, h => by
    rw [List.dropWhile_cons]
    by_cases hp : p c = true
    · rw [if_pos hp]
      exact wsOkB_dropWhile p rest (wsOkB_tail h)
    · rw [if_neg hp]
      exact h

theorem dropTrailing_head (p : Char → Bool) (x : Char) (xs : List Char) :
    dropTrailing p (x :: xs) = [] ∨ ∃ r, dropTrailing p (x :: xs) = x :: r := by
  rw [dropTrailing_cons]
  cases dropTrailing p xs with
  | nil =>
    by_cases hp : p x = true
    · rw [if_pos hp]; exact Or.inl rfl
    · rw [if_neg hp]; exact Or.inr ⟨[], rfl⟩
  | cons y r => exact Or.inr ⟨y :: r, rfl⟩

theorem pairOk_same_head (a b : Char) (l l2 : List Char) :
    pairOk a (b :: l) = pairOk a (b :: l2) := rfl

theorem wsOkB_dropTrailing (p : Char → Bool) :
    ∀ l : List Char, wsOkB l = true → wsOkB (dropTrailing p l) = true
  | [], h => h
  | c :: rest, h => by
    rw [wsOkB_cons] at h
    rcases Bool.and_eq_true_iff.mp h with ⟨h1, h2⟩
    rcases Bool.and_eq_true_iff.mp h1 with ⟨hok, hpair⟩
    cases hdt : dropTrailing p rest with
    | nil =>
      simp only [dropTrailing_cons, hdt]
      by_cases hp : p c = true
      · rw [if_pos hp]; rfl
      · rw [if_neg hp, wsOkB_cons, hok]
        simp [pairOk, wsOkB]
    | cons x r =>
      simp only [dropTrailing_cons, hdt]
      have hrec : wsOkB (x :: r) = true := by
        have := wsOkB_dropTrailing p rest h2
        rw [hdt] at this
        exact this
      have hpair2 : pairOk c (x :: r) = true := by
        cases rest with
        | nil => exact absurd hdt (by rw [dropTrailing_nil]; exact fun hc => List.noConfusion hc)
        | cons b t =>
          rcases dropTrailing_head p b t with he | ⟨r2, he⟩
          · rw [he] at hdt; exact absurd hdt (fun hc => List.noConfusion hc)
          · rw [he] at hdt
            injection hdt with hxb hrr
            rw [← hxb]
            rw [pairOk_same_head c b r t]
            exact hpair
      rw [wsOkB_cons, hok, hpair2, hrec]
      rfl

theorem headNotB_dropWhile (p : Char → Bool) :
    ∀ l : List Char, headNotB p (l.dropWhile p) = true
  | [] => rfl
  | c :: rest => by
    rw [List.dropWhile_cons]
    by_cases hp : p c = true
    · rw [if_pos hp]
      exact headNotB_dropWhile p rest
    · rw [if_neg hp]
      simp [headNotB, hp]

theorem lastNotB_dropTrailing (p : Char → Bool) :
    ∀ l : List Char, lastNotB p (dropTrailing p l) = true
  | [] => rfl
  | c :: rest => by
    cases hdt : dropTrailing p rest with
    | nil =>
      simp only [dropTrailing_cons, hdt]
      by_cases hp : p c = true
      · rw [if_pos hp]; rfl
      · rw [if_neg hp]
        simp [lastNotB, hp]
    | cons x r =>
      simp only [dropTrailing_cons, hdt]
      have := lastNotB_dropTrailing p rest
      rw [hdt] at this
      rw [lastNotB, List.getLast?_cons_cons]
      rw [lastNotB] at this
      exact this

theorem headNotB_dropTrailing (p q : Char → Bool) :
    ∀ l : List Char, headNotB q l = true → headNotB q (dropTrailing p l) = true
  | [], h => h
  | c :: rest, h => by
    cases hdt : dropTrailing p rest with
    | nil =>
      simp only [dropTrailing_cons, hdt]
      by_cases hp : p c = true
      · rw [if_pos hp]; rfl
      · rw [if_neg hp]
        exact h
    | cons x r =>
      simp only [dropTrailing_cons, hdt]
      exact h

theorem stripOne_noComment (s : String) : hasCommentB (stripOne s).data = false := by
  rw [stripOne]
  show hasCommentB (trimSpace (collapseWs (stripComments s.data))) = false
  rw [trimSpace]
  cases hc : hasCommentB (dropTrailing goSpace ((collapseWs (stripComments s.data)).dropWhile goSpace)) with
  | false => rfl
  | true =>
    exfalso
    have h1 := hasCommentB_dropTrailing goSpace _ hc
    have h2 := hasCommentB_dropWhile goSpace _ h1
    rw [collapseWs] at h2
    have h3 := collapseWsAux_noComment _ false h2
    rw [stripComments_noComment] at h3
    exact Bool.noConfusion h3

theorem stripOne_wsOk (s : String) : wsOkB (stripOne s).data = true := by
  rw [stripOne]
  show wsOkB (trimSpace (collapseWs (stripComments s.data))) = true
  rw [trimSpace]
  exact wsOkB_dropTrailing goSpace _ (wsOkB_dropWhile goSpace _ (collapseWsAux_wsOk _ false))

theorem stripOne_trimmed (s : String) :
    headNotB goSpace (stripOne s).data = true ∧ lastNotB goSpace (stripOne s).data = true := by
  rw [stripOne]
  constructor
  · show headNotB goSpace (trimSpace (collapseWs (stripComments s.data))) = true
    rw [trimSpace]
    exact headNotB_dropTrailing goSpace goSpace _ (headNotB_dropWhile goSpace _)
  · show lastNotB goSpace (trimSpace (collapseWs (stripComments s.data))) = true
    rw [trimSpace]
    exact lastNotB_dropTrailing goSpace _

/-- C3: stripSpaceAndComments maps the Date value with embedded newlines,
indentation and a parenthesized comment to "Thu, 13 Feb 1969 23:32 -0330",
and for every input list each output value contains no remaining
parenthesized comment, has every whitespace run collapsed to one space
(all whitespace characters are spaces, no two adjacent), and is trimmed
at both ends. -/
theorem stripSpaceAndComments_spec :
    stripSpaceAndComments [dateRaw] = ["Thu, 13 Feb 1969 23:32 -0330"] ∧
    ∀ (vals : List String) (v : String), v ∈ stripSpaceAndComments vals →
      hasCommentB v.data = false ∧ wsOkB v.data = true ∧
      headNotB goSpace v.data = true ∧ lastNotB goSpace v.data = true := by
  constructor
  · decide
  · intro vals v hv
    rw [stripSpaceAndComments] at hv
    rcases List.mem_map.mp hv with ⟨u, _, rfl⟩
    exact ⟨stripOne_noComment u, stripOne_wsOk u, stripOne_trimmed u⟩

/-- Witness for C3 at the Date test vector. -/
theorem stripSpaceAndComments_spec_witness :
    ("Thu, 13 Feb 1969 23:32 -0330" ∈ stripSpaceAndComments [dateRaw]) ∧
    (hasCommentB "Thu, 13 Feb 1969 23:32 -0330".data = false ∧
     wsOkB "Thu, 13 Feb 1969 23:32 -0330".data = true ∧
     headNotB goSpace "Thu, 13 Feb 1969 23:32 -0330".data = true ∧
     lastNotB goSpace "Thu, 13 Feb 1969 23:32 -0330".data = true) := by
  have h := stripSpaceAndComments_spec
  have hm : "Thu, 13 Feb 1969 23:32 -0330" ∈ stripSpaceAndComments [dateRaw] := by
    rw [h.1]
    exact List.mem_singleton.mpr rfl
  exact ⟨hm, h.2 [dateRaw] _ hm⟩

-- ### C4: splitAddrs

theorem isSpaceCh_not_comma {c : Char} (h : isSpaceCh c = true) : (c == ',') = false := by
  simp [isSpaceCh] at h
  rcases h with (((h | h) | h) | h) | h <;> subst h <;> decide

theorem splitAux_no_comma :
    ∀ (l cur pend : List Char) (postC : Bool),
      cur.any (fun c => c == ',') = false → pend.any (fun c => c == ',') = false →
      ∀ piece ∈ splitAux l cur pend postC, piece.any (fun c => c == ',') = false
  | [], cur, pend, postC, hc, hp, piece, hm => by
    rw [splitAux] at hm
    rcases List.mem_singleton.mp hm with rfl
    rw [List.any_reverse, List.any_append, hc, hp]
    rfl
  | c :: rest, cur, pend, postC, hc, hp, piece, hm => by
    rw [splitAux] at hm
    by_cases hcm : c = ','
    · rw [if_pos hcm] at hm
      rcases List.mem_cons.mp hm with rfl | hm2
      · simpa using hc
      · exact splitAux_no_comma rest [] [] true rfl rfl piece hm2
    · rw [if_neg hcm] at hm
      by_cases hs : isSpaceCh c = true
      · rw [if_pos hs] at hm
        cases postC with
        | true => exact splitAux_no_comma rest cur pend true hc hp piece hm
        | false =>
          refine splitAux_no_comma rest cur (c :: pend) false hc ?_ piece hm
          rw [List.any_cons, isSpaceCh_not_comma hs, Bool.false_or]
          exact hp
      · rw [if_neg hs] at hm
        refine splitAux_no_comma rest (c :: (pend ++ cur)) [] false ?_ rfl piece hm
        rw [List.any_cons, List.any_append, hc, hp]
        have : (c == ',') = false := by
          cases hb : (c == ',') with
          | false => rfl
          | true => exact absurd (eq_of_beq hb) hcm
        rw [this]
        rfl

theorem splitAux_length :
    ∀ (l cur pend : List Char) (postC : Bool),
      (splitAux l cur pend postC).length = l.count ',' + 1
  | [], cur, pend, postC => by rw [splitAux]; rfl
  | c :: rest, cur, pend, postC => by
    rw [splitAux]
    by_cases hcm : c = ','
    · rw [if_pos hcm, List.length_cons, splitAux_length rest [] [] true, hcm,
        List.count_cons_self]
    · have hne : (c :: rest).count ',' = rest.count ',' := by
        rw [List.count_cons]
        simp [hcm]
      rw [if_neg hcm]
      by_cases hs : isSpaceCh c = true
      · rw [if_pos hs]
        cases postC with
        | true => rw [if_pos (rfl : true = true), splitAux_length rest cur pend true, hne]
        | false => rw [if_neg (by decide : ¬(false = true)), splitAux_length rest cur (c :: pend) false, hne]
      · rw [if_neg hs, splitAux_length rest (c :: (pend ++ cur)) [] false, hne]

/-- C4: splitAddrs splits the address test vector into exactly the three
expected entries; every output entry contains no comma (splitting happens
exactly at commas, whose surrounding whitespace is absorbed by the
separator), and for every input list the number of entries is the number
of commas plus one per value. -/
theorem splitAddrs_spec :
    splitAddrs [addrRaw] =
      ["hello world <test@example.com>", "nice@me.me (test)", "hi@example.com"] ∧
    (∀ (vals : List String) (v : String), v ∈ splitAddrs vals →
      v.data.any (fun c => c == ',') = false) ∧
    ∀ (vals : List String),
      (splitAddrs vals).length = (vals.map (fun v => v.data.count ',' + 1)).sum := by
  refine ⟨by decide, ?_, ?_⟩
  · intro vals v hv
    rw [splitAddrs] at hv
    rcases List.mem_flatten.mp hv with ⟨pieces, hpieces, hvp⟩
    rcases List.mem_map.mp hpieces with ⟨u, _, rfl⟩
    rw [splitOne] at hvp
    rcases List.mem_map.mp hvp with ⟨cs, hcs, rfl⟩
    exact splitAux_no_comma u.data [] [] false rfl rfl cs hcs
  · intro vals
    rw [splitAddrs, List.length_flatten, List.map_map]
    have hf : (List.length ∘ splitOne) = (fun v : String => v.data.count ',' + 1) := by
      funext v
      show (splitOne v).length = v.data.count ',' + 1
      rw [splitOne, List.length_map]
      exact splitAux_length v.data [] [] false
    rw [hf]

/-- Witness for C4 at the address test vector. -/
theorem splitAddrs_spec_witness :
    ("nice@me.me (test)" ∈ splitAddrs [addrRaw]) ∧
    ("nice@me.me (test)".data.any (fun c => c == ',') = false) ∧
    (splitAddrs [addrRaw]).length = ([addrRaw].map (fun v => v.data.count ',' + 1)).sum := by
  have h := splitAddrs_spec
  have hm : "nice@me.me (test)" ∈ splitAddrs [addrRaw] := by
    rw [h.1]
    decide
  exact ⟨hm, h.2.1 [addrRaw] _ hm, h.2.2 [addrRaw]⟩

theorem b64MapByte_eq_spec (b : Nat) : b64MapByte b = b64SpecMap b := by
  unfold b64MapByte b64SpecMap isB64Alpha
  split_ifs <;> first | rfl | omega

/-- C6: every byte kept by normalizeForBase64 lies in the canonical base64
alphabet, and the whole function equals the specification-side byte map
that sends comma, underscore and colon to slash, dash to plus, keeps the
alphabet and drops everything else, preserving input order. -/
theorem normalizeForBase64_spec :
    (∀ (body : List Nat) (b : Nat), b ∈ normalizeForBase64 body → isB64Alpha b) ∧
    ∀ body : List Nat, normalizeForBase64 body = body.filterMap b64SpecMap := by
  constructor
  · intro body b hb
    rcases List.mem_filterMap.mp hb with ⟨a, _, hmap⟩
    unfold b64MapByte at hmap
    split_ifs at hmap with h1 h2 h3
    · rcases Option.some.inj hmap with rfl
      exact h1
    · rcases Option.some.inj hmap with rfl
      omega
    · rcases Option.some.inj hmap with rfl
      omega
  · intro body
    rw [normalizeForBase64]
    exact List.filterMap_congr (fun x _ => b64MapByte_eq_spec x)

/-- Witness for C6 at concrete bytes. -/
theorem normalizeForBase64_spec_witness :
    (47 ∈ normalizeForBase64 [44]) ∧ isB64Alpha 47 ∧
    normalizeForBase64 [44, 10, 65, 45] = [44, 10, 65, 45].filterMap b64SpecMap := by
  have h := normalizeForBase64_spec
  exact ⟨by decide, h.1 [44] 47 (by decide), h.2 [44, 10, 65, 45]⟩

-- ### C7: Message-Id promotion

theorem headerHasKey_erase (h : Header) (k : String) :
    headerHasKey (headerErase h k) k = false := by
  rw [headerHasKey, headerErase]
  rw [List.any_eq_false]
  intro x hx
  have h2 := (List.mem_filter.mp hx).2
  simp at h2
  simp [h2]

theorem headerHasKey_decodeWords (env : Env) (h : Header) (k : String) :
    headerHasKey (decodeWords env h) k = headerHasKey h k := by
  rw [headerHasKey, headerHasKey, decodeWords, List.any_map]
  rfl

theorem any_key_map_set (h : Header) (k' k : String) (vs : List String)
    (hne : (k' == k) = false) :
    (h.map (fun p => if p.fst == k' then (k', vs) else p)).any (fun p => p.fst == k)
      = h.any (fun p => p.fst == k) := by
  induction h with
  | nil => rfl
  | cons q t ih =>
    rw [List.map_cons, List.any_cons, List.any_cons, ih]
    by_cases hq : (q.fst == k') = true
    · rw [if_pos hq]
      have h1 : (q.fst == k) = false := by
        rw [show q.fst = k' from eq_of_beq hq]
        exact hne
      show ((k' == k) || List.any t (fun p => p.fst == k))
        = ((q.fst == k) || List.any t (fun p => p.fst == k))
      rw [hne, h1]
    · rw [if_neg hq]

theorem headerHasKey_set_ne (h : Header) (k' k : String) (vs : List String)
    (hne : (k' == k) = false) :
    headerHasKey (headerSet h k' vs) k = headerHasKey h k := by
  rw [headerSet]
  by_cases hp : List.any h (fun p => p.fst == k') = true
  · rw [if_pos hp, headerHasKey, headerHasKey]
    exact any_key_map_set h k' k vs hne
  · rw [if_neg hp, headerHasKey, headerHasKey, List.any_append, List.any_cons, List.any_nil]
    rw [hne]
    simp

theorem headerHasKey_normalize (env : Env) (h : Header) :
    headerHasKey (normalizeHeader env h) "Message-Id" = headerHasKey h "Message-Id" := by
  rw [normalizeHeader]
  rw [headerHasKey_set_ne _ _ _ _ (by decide)]
  rw [headerHasKey_set_ne _ _ _ _ (by decide)]
  rw [headerHasKey_set_ne _ _ _ _ (by decide)]
  rw [headerHasKey_set_ne _ _ _ _ (by decide)]
  rw [headerHasKey_set_ne _ _ _ _ (by decide)]
  rw [headerHasKey_set_ne _ _ _ _ (by decide)]
  rw [headerHasKey_set_ne _ _ _ _ (by decide)]
  exact headerHasKey_decodeWords env h "Message-Id"

/-- C7: the Document identifier is this node's own Message-Id header value
(headerGet yields the empty string when the header is absent), and the
returned header mapping never contains a Message-Id entry. -/
theorem jsonifyMsg_messageId (env : Env) (msg : Message) :
    (jsonifyMsg env msg).id = headerGet msg.header "Message-Id" ∧
    headerHasKey (jsonifyMsg env msg).header "Message-Id" = false := by
  cases msg with
  | mk h b pre epi sub parts =>
    constructor
    · rfl
    · show headerHasKey (normalizeHeader env (headerErase h "Message-Id")) "Message-Id" = false
      rw [headerHasKey_normalize]
      exact headerHasKey_erase h "Message-Id"

-- ### C2: mutual exclusion

theorem resolveBody_excl (env : Env) (hdr : Header) (body : List Nat) :
    (resolveBody env hdr body).fst = "" ∨ (resolveBody env hdr body).snd = "" := by
  cases h1 : transferStage env hdr body with
  | none =>
    left
    rw [resolveBody, h1]
  | some b =>
    cases h2 : charsetStage env hdr b with
    | none =>
      left
      rw [resolveBody, h1]
      show (match charsetStage env hdr b with
            | some t => (t, "")
            | none => ("", attachPath env b)).1 = ""
      rw [h2]
    | some t =>
      right
      rw [resolveBody, h1]
      show (match charsetStage env hdr b with
            | some t => (t, "")
            | none => ("", attachPath env b)).2 = ""
      rw [h2]

/-- C2: for every environment and parsed node, the returned Document never
has both TextBody and AttachmentReference nonempty: when the charset
stage succeeds the attachment path stays empty, and whenever an
attachment path is recorded the TextBody stays empty. -/
theorem jsonifyMsg_exclusive (env : Env) (msg : Message) :
    (jsonifyMsg env msg).textBody = "" ∨ (jsonifyMsg env msg).attachment = "" := by
  cases msg with
  | mk h b pre epi sub parts =>
    show (resolveBody env (normalizeHeader env (headerErase h "Message-Id")) b).fst = "" ∨
         (resolveBody env (normalizeHeader env (headerErase h "Message-Id")) b).snd = ""
    exact resolveBody_excl _ _ _

-- ### attachPath is never empty

theorem digestBytes_length (env : Env) (body : List Nat) :
    (digestBytes env body).length = 32 := by
  rw [digestBytes, List.length_ofFn]

theorem hexEncode_digest_ne_nil (env : Env) (body : List Nat) :
    hexEncode (digestBytes env body) ≠ [] := by
  cases hd : digestBytes env body with
  | nil =>
    have := digestBytes_length env body
    rw [hd] at this
    exact absurd this (by decide)
  | cons x t =>
    rw [hexEncode]
    simp [byteHex]

theorem attachPath_ne_empty (env : Env) (body : List Nat) :
    attachPath env body ≠ "" := by
  rw [attachPath]
  by_cases ha : env.attachdir = ""
  · rw [if_pos ha]
    intro hc
    have : hexEncode (digestBytes env body) = [] := by
      have := congrArg String.data hc
      simpa using this
    exact hexEncode_digest_ne_nil env body this
  · rw [if_neg ha]
    intro hc
    have : env.attachdir.data ++ '/' :: hexEncode (digestBytes env body) = [] := by
      have := congrArg String.data hc
      simp at this
    exact absurd this (by simp)

-- ### C5: transfer-decode failure

/-- C5: when the transfer-encoding stage fails (declared encoding is
quoted-printable or base64 and the decoder errors), the part falls
through to the attachment path carrying its original undecoded bytes:
TextBody is empty and the recorded attachment path is the digest path of
the original body.  No error escapes: jsonifyMsg is total. -/
theorem jsonifyMsg_transfer_fail (env : Env) (msg : Message)
    (h : transferStage env (jmHeader env msg) msg.body = none) :
    (jsonifyMsg env msg).textBody = "" ∧
    (jsonifyMsg env msg).attachment = attachPath env msg.body := by
  cases msg with
  | mk hd b pre epi sub parts =>
    have h2 : transferStage env (normalizeHeader env (headerErase hd "Message-Id")) b = none := h
    constructor
    · show (resolveBody env (normalizeHeader env (headerErase hd "Message-Id")) b).fst = ""
      rw [resolveBody, h2]
    · show (resolveBody env (normalizeHeader env (headerErase hd "Message-Id")) b).snd
        = attachPath env b
      rw [resolveBody, h2]

-- ### C9: tree shape

theorem jsonifyParts_eq (env : Env) (ps : List (Option Message)) :
    jsonifyParts env ps = (ps.filterMap id).map (jsonifyMsg env) := by
  induction ps with
  | nil => rfl
  | cons hd tl ih =>
    cases hd with
    | none =>
      rw [jsonifyParts, ih, List.filterMap_cons]
      rfl
    | some m =>
      rw [jsonifyParts, ih, List.filterMap_cons]
      rfl

theorem jsonifySub_eq (env : Env) (s : Option Message) :
    jsonifySub env s = s.map (jsonifyMsg env) := by
  cases s <;> rfl

/-- C9: the Parts list is exactly the non-null children transformed in
their original order (so its length is the number of non-null children),
and SubMessage is the transformed sub-message, present exactly when the
input has one. -/
theorem jsonifyMsg_tree_shape (env : Env) (msg : Message) :
    (jsonifyMsg env msg).parts = (msg.parts.filterMap id).map (jsonifyMsg env) ∧
    (jsonifyMsg env msg).parts.length = (msg.parts.filterMap id).length ∧
    (jsonifyMsg env msg).subMessage = msg.subMessage.map (jsonifyMsg env) ∧
    (jsonifyMsg env msg).subMessage.isSome = msg.subMessage.isSome := by
  cases msg with
  | mk h b pre epi sub parts =>
    have hp : (jsonifyMsg env (Message.mk h b pre epi sub parts)).parts
        = jsonifyParts env parts := rfl
    have hs : (jsonifyMsg env (Message.mk h b pre epi sub parts)).subMessage
        = jsonifySub env sub := rfl
    refine ⟨?_, ?_, ?_, ?_⟩
    · rw [hp, jsonifyParts_eq]
      rfl
    · rw [hp, jsonifyParts_eq]
      show ((parts.filterMap id).map (jsonifyMsg env)).length = _
      rw [List.length_map]
      rfl
    · rw [hs, jsonifySub_eq]
      rfl
    · rw [hs, jsonifySub_eq]
      cases sub <;> rfl

-- ### C10: attachment nonempty unless text success

/-- C10 (amended): for every node whose charset stage is not taken or does
not succeed - in particular every node whose transfer stage fails and
every non-text container node - the returned Document has a non-empty
AttachmentReference.  (The unamended corollary that a Document never has
neither field fails: see the counterexample where the charset stage
succeeds with empty decoded text.) -/
theorem jsonifyMsg_attachment_nonempty (env : Env) (msg : Message)
    (h : ∀ b, transferStage env (jmHeader env msg) msg.body = some b →
         charsetStage env (jmHeader env msg) b = none) :
    (jsonifyMsg env msg).attachment ≠ "" := by
  cases msg with
  | mk hd b pre epi sub parts =>
    show (resolveBody env (normalizeHeader env (headerErase hd "Message-Id")) b).snd ≠ ""
    cases h1 : transferStage env (normalizeHeader env (headerErase hd "Message-Id")) b with
    | none =>
      rw [resolveBody, h1]
      exact attachPath_ne_empty env b
    | some b2 =>
      have h2 : charsetStage env (normalizeHeader env (headerErase hd "Message-Id")) b2 = none :=
        h b2 h1
      rw [resolveBody, h1]
      show (match charsetStage env (normalizeHeader env (headerErase hd "Message-Id")) b2 with
            | some t => (t, "")
            | none => ("", attachPath env b2)).2 ≠ ""
      rw [h2]
      exact attachPath_ne_empty env b2

/-- Counterexample for C10 as stated: a text/plain part with an explicit
utf-8 charset and empty body decodes successfully to the empty string, so
the returned Document has an empty TextBody and an empty
AttachmentReference - a Document with neither field does occur. -/
theorem jsonifyMsg_neither_field :
    (jsonifyMsg envC10 msgC10).textBody = "" ∧ (jsonifyMsg envC10 msgC10).attachment = "" := by
  constructor <;> rfl

/-- Witness for C10 (amended) at a container node with no Content-Type. -/
theorem jsonifyMsg_attachment_nonempty_witness :
    (∀ b, transferStage envW10 (jmHeader envW10 msgW10) msgW10.body = some b →
       charsetStage envW10 (jmHeader envW10 msgW10) b = none) ∧
    (jsonifyMsg envW10 msgW10).attachment ≠ "" :=
  ⟨fun _ _ => rfl, jsonifyMsg_attachment_nonempty envW10 msgW10 (fun _ _ => rfl)⟩

/-- Witness for C5: a quoted-printable part whose decode fails. -/
theorem jsonifyMsg_transfer_fail_witness :
    transferStage envW5 (jmHeader envW5 msgW5) msgW5.body = none ∧
    ((jsonifyMsg envW5 msgW5).textBody = "" ∧
     (jsonifyMsg envW5 msgW5).attachment = attachPath envW5 msgW5.body) :=
  ⟨rfl, jsonifyMsg_transfer_fail envW5 msgW5 rfl⟩

-- ### C8: store dedup

/-- C8: storing the same byte payload twice returns the same digest path
both times and performs exactly one physical write: the second call finds
the file present, skips the write, leaves the store unchanged and reports
success; the first call performs the write when the file was absent. -/
theorem saveAttachment_dedup (env : Env) (fs : FS) (body : List Nat) :
    (saveAttachment env (saveAttachment env fs body).snd.fst body).fst
      = (saveAttachment env fs body).fst ∧
    (saveAttachment env (saveAttachment env fs body).snd.fst body).snd.snd = false ∧
    (saveAttachment env (saveAttachment env fs body).snd.fst body).snd.fst
      = (saveAttachment env fs body).snd.fst ∧
    (fs.existing.contains (attachPath env body) = false →
      (saveAttachment env fs body).snd.snd = true) := by
  cases hc : fs.existing.contains (attachPath env body) with
  | true =>
    have h1 : saveAttachment env fs body = (attachPath env body, fs, false) := by
      rw [saveAttachment, if_pos hc]
    rw [h1]
    have h2 : saveAttachment env fs body = (attachPath env body, fs, false) := h1
    refine ⟨?_, ?_, ?_, ?_⟩
    · rw [saveAttachment, if_pos hc]
    · show (saveAttachment env fs body).snd.snd = false
      rw [h2]
    · show (saveAttachment env fs body).snd.fst = fs
      rw [h2]
    · intro hfalse
      exact Bool.noConfusion hfalse
  | false =>
    have h1 : saveAttachment env fs body
        = (attachPath env body, FS.mk (attachPath env body :: fs.existing), true) := by
      rw [saveAttachment, if_neg (by rw [hc]; exact Bool.false_ne_true)]
    have hmem : (FS.mk (attachPath env body :: fs.existing)).existing.contains
        (attachPath env body) = true := by
      show (attachPath env body :: fs.existing).contains (attachPath env body) = true
      simp [List.contains_cons]
    have h2 : saveAttachment env (FS.mk (attachPath env body :: fs.existing)) body
        = (attachPath env body, FS.mk (attachPath env body :: fs.existing), false) := by
      rw [saveAttachment, if_pos hmem]
    rw [h1]
    refine ⟨?_, ?_, ?_, fun _ => rfl⟩
    · show (saveAttachment env (FS.mk (attachPath env body :: fs.existing)) body).fst = _
      rw [h2]
    · show (saveAttachment env (FS.mk (attachPath env body :: fs.existing)) body).snd.snd = false
      rw [h2]
    · show (saveAttachment env (FS.mk (attachPath env body :: fs.existing)) body).snd.fst = _
      rw [h2]

/-- Witness for C8 on an empty store. -/
theorem saveAttachment_dedup_witness :
    (FS.mk []).existing.contains (attachPath envW8 [1, 2]) = false ∧
    ((saveAttachment envW8 (saveAttachment envW8 (FS.mk []) [1, 2]).snd.fst [1, 2]).fst
        = (saveAttachment envW8 (FS.mk []) [1, 2]).fst ∧
     (saveAttachment envW8 (saveAttachment envW8 (FS.mk []) [1, 2]).snd.fst [1, 2]).snd.snd = false ∧
     (saveAttachment envW8 (saveAttachment envW8 (FS.mk []) [1, 2]).snd.fst [1, 2]).snd.fst
        = (saveAttachment envW8 (FS.mk []) [1, 2]).snd.fst ∧
     (saveAttachment envW8 (FS.mk []) [1, 2]).snd.snd = true) := by
  have h := saveAttachment_dedup envW8 (FS.mk []) [1, 2]
  exact ⟨rfl, h.1, h.2.1, h.2.2.1, h.2.2.2 rfl⟩

/-- C1: the charset-resolution branches of decodeCharset are inverted.
With no explicit charset and a detector that confidently reports KOI8-R,
the code resolves the charset to utf-8 (the err-nil branch assigns
"utf-8" while its log line claims nothing was detected); and when the
detector reports no confident result the code reads the charset field of
the nil detection result (modelled as the crashing outcome none), instead
of defaulting to UTF-8 as the specification - and the code's own log
messages - describe. -/
theorem decodeCharset_confident_detection_ignored :
    envC1.detect false [200] = some "KOI8-R" ∧
    resolveCharsetName envC1 "" [200] false = some "utf-8" ∧
    decodeCharset envC1 "" [200] false = some (some [200], "utf-8") ∧
    resolveCharsetName envC1crash "" [200] false = none :=
  ⟨rfl, rfl, rfl, rfl⟩
